import Mathlib

/-! needless-search: query planner and pipeline executor (`src/pipeline/run.go`)

A shallow embedding of `Pipeline.Run`, `languageFilter`, `fanout`, `run` and
`exitStatus`.  The operating system and the Go standard library (`os/exec`,
`runtime`, `syscall`) are not part of the repository; what the code asks of
them is answered by a `World` value, so that every function below is a pure,
executable function of the pipeline and the world.
-/

namespace NeedlessSearch

/-! ## Data model -/

/-- Go's `syscall.WaitStatus`, as far as `ExitStatus()` looks at it: the child
either exited with a code or was terminated by a signal. -/
inductive WaitStatus where
  | exited (code : Int)
  | signaled (sig : Int)
deriving DecidableEq, Repr

/-- Go's `WaitStatus.ExitStatus()`: the exit code, or `-1` when the child did
not exit normally. -/
def WaitStatus.ExitStatus : WaitStatus → Int
  | .exited code => code
  | .signaled _ => -1

/-- The dynamic types of `error` values that `run` and `exitStatus` tell apart
by type assertion.  `exitError sys` is `*exec.ExitError` (with the value of
`Sys()` when it is a `syscall.WaitStatus`), `execError` is `*exec.Error` with
its `Name` field and the text of `Error()`. -/
inductive GoError where
  | exitError (sys : Option WaitStatus)
  | execError (Name : String) (text : String)
  | other (text : String)
deriving DecidableEq, Repr

/-- What a child's standard stream can be bound to.  `pipeWriter i` and
`pipeReader i` are the two ends of the pipe made by `StdoutPipe` on child `i`. -/
inductive Stream where
  | parentStdout
  | parentStderr
  | pipeWriter (i : Nat)
  | pipeReader (i : Nat)
deriving DecidableEq, Repr

/-- The fields of Go's `exec.Cmd` that `run` reads or writes. -/
structure Cmd where
  Path : String
  Args : List String
  Stdin : Option Stream := none
  Stdout : Option Stream := none
  Stderr : Option Stream := none
  lookPathErr : Option GoError := none
deriving DecidableEq, Repr

/-- The environment probe `p.env` (type declared outside `run.go`): the values
its methods return, and the `NdlPath` field. -/
structure Env where
  IsMdfindAvailable : Bool
  WantsSpecificLanguages : Bool
  IsInGitRepository : Bool
  LangsAsRegexString : String
  NdlPath : String
deriving DecidableEq, Repr

/-- The needle side `p.s`: `Needle()` returns two values (the second one is
discarded by `Run`), `Query()` the query string, `AsBash()` the matcher
command vector. -/
structure Search where
  Needle : String × Bool
  Query : String
  AsBash : List String
deriving DecidableEq, Repr

/-- The haystack side `p.h`: `AsBash()` is the producer command vector. -/
structure Haystack where
  AsBash : List String
deriving DecidableEq, Repr

/-- The receiver of `Run`. -/
structure Pipeline where
  env : Env
  s : Search
  h : Haystack
deriving DecidableEq, Repr

/-- Answers of the operating system and of the Go runtime.
* `NumCPU`: `runtime.NumCPU()`;
* `isBareName name`: `filepath.Base(name) == name`, the test by which
  `exec.Command` decides to look the program up on `PATH`;
* `lookPath name`: `exec.LookPath`, either the resolved path or the text of
  the `*exec.Error` it returns;
* `pipe i`: the error of `os.Pipe()` inside `StdoutPipe` of child `i`, if any;
* `startProcess i`: the error of `os.StartProcess` for child `i`, if any;
* `wait i`: the error returned by `Wait()` on child `i`, if any. -/
structure World where
  NumCPU : Int
  isBareName : String → Bool
  lookPath : String → Except String String
  pipe : Nat → Option String
  startProcess : Nat → Option String
  wait : Nat → Option GoError

/-- What the supervisor does that is visible from outside, in order. -/
inductive Event where
  | writeHeader (text : String)
  | start (i : Nat)
  | stderr (text : String)
  | wait (i : Nat)
deriving DecidableEq, Repr

/-- Why a call of `run` panics: an index is out of range, or `panic(err)` with
the error of a failed `Start`. -/
inductive Panic where
  | indexOutOfRange
  | startFailed (err : GoError)
deriving DecidableEq, Repr

/-- How a call of `run` ends: it returns an `error` (`none` is `nil`), the
process exits through `os.Exit`, or it panics. -/
inductive Outcome where
  | returned (err : Option GoError)
  | exited (code : Int)
  | panicked (why : Panic)
deriving DecidableEq, Repr

/-- The observable result of one call of `run`: the command sequence after the
renderer was appended, the children after the wiring loop (when that loop ran
to its end), the events, and the way the call ended. -/
structure RunResult where
  commands : List (List String)
  wired : Option (List Cmd)
  trace : List Event
  outcome : Outcome
deriving DecidableEq, Repr

/-! ## Query planner -/

/-- The Go function `languageFilter`. -/
def languageFilter (p : Pipeline) : List String :=
  ["grep", "-z", "-Z", "-E", "-e", p.env.LangsAsRegexString]

/-- The Go function `fanout`; `strconv.Itoa` is decimal rendering. -/
def fanout (w : World) : List String :=
  let cpuCount := w.NumCPU
  ["xargs", "-0", "-n", "1000", "-P", toString cpuCount]

/-- The renderer command that `run` appends. -/
def render (p : Pipeline) : List String :=
  [p.env.NdlPath, "--reformat-grep-output", p.s.Query]

/-- The condition `useGitGrep` of `Run`. -/
def useGitGrep (p : Pipeline) : Bool :=
  !p.env.IsMdfindAvailable && !p.env.WantsSpecificLanguages && p.env.IsInGitRepository

/-- The command sequence that `Run` passes to `run`. -/
def plan (p : Pipeline) (w : World) : List (List String) :=
  if useGitGrep p then
    [["git", "grep", "--untracked", "-I", "-H", "-n", "-e", p.s.Needle.1]]
  else
    let commands := [p.h.AsBash]
    let commands := if p.env.WantsSpecificLanguages then commands ++ [languageFilter p] else commands
    commands ++ [fanout w ++ p.s.AsBash]

/-! ## Pipeline executor -/

/-- Go's `exec.Command(name, arg...)`: a bare program name is looked up on
`PATH`; a failed lookup is remembered in the command and reported by `Start`. -/
def Command (w : World) (name : String) (arg : List String) : Cmd :=
  if w.isBareName name then
    match w.lookPath name with
    | .ok lp => { Path := lp, Args := name :: arg }
    | .error text => { Path := name, Args := name :: arg, lookPathErr := some (.execError name text) }
  else
    { Path := name, Args := name :: arg }

/-- The first loop of `run`: one `exec.Cmd` per command.  `command[0]` on an
empty command is an index out of range, that is `none`. -/
def createCmds (w : World) : List (List String) → Option (List Cmd)
  | [] => some []
  | [] :: _ => none
  | (name :: args) :: rest => (createCmds w rest).map (fun cmds => Command w name args :: cmds)

/-- Go's `(*Cmd).StdoutPipe` on child `i`: refuses when `Stdout` is already
set, fails when the OS refuses the pipe, else binds `Stdout` to the write end
and returns the read end. -/
def StdoutPipe (w : World) (i : Nat) (cmd : Cmd) : Except GoError (Cmd × Stream) :=
  if cmd.Stdout.isSome then .error (.other "exec: Stdout already set")
  else
    match w.pipe i with
    | some text => .error (.other text)
    | none => .ok ({ cmd with Stdout := some (.pipeWriter i) }, .pipeReader i)

/-- Result of the wiring loop. -/
inductive Wired where
  | ok (cmds : List Cmd) (buf : String)
  | err (e : GoError)
  | outOfRange
deriving DecidableEq, Repr

/-- The wiring loop of `run` (`for i, cmd := range cmds`), from index `i` with
`n` iterations left. -/
def wire (w : World) (commands : List (List String)) (finalI : Int) :
    Nat → Nat → List Cmd → String → Wired
  | 0, _, cmds, buf => .ok cmds buf
  | n + 1, i, cmds, buf =>
    match cmds[i]?, commands[i]? with
    | some cmd, some command =>
      let cmd := { cmd with Stderr := some .parentStderr }
      let buf := if i > 0 then buf ++ " | " else buf
      let buf := buf ++ " ".intercalate command
      if (i : Int) = finalI then
        wire w commands finalI n (i + 1) (cmds.set i { cmd with Stdout := some .parentStdout }) buf
      else
        match StdoutPipe w i cmd with
        | .error e => .err e
        | .ok (cmd, r) =>
          let cmds := cmds.set i cmd
          match cmds[i + 1]? with
          | some next =>
            wire w commands finalI n (i + 1) (cmds.set (i + 1) { next with Stdin := some r }) buf
          | none => .outOfRange
    | _, _ => .outOfRange

/-- Go's `(*Cmd).Start` on child `i`. -/
def Start (w : World) (i : Nat) (cmd : Cmd) : Option GoError :=
  match cmd.lookPathErr with
  | some e => some e
  | none => (w.startProcess i).map GoError.other

/-- The text `run` prints when a tool is missing (`fmt.Fprintf` with `e.Name`
and `err.Error()`). -/
def missingToolMessage (name text : String) : String :=
  "Couldn't find a tool needed by our query plan\n" ++
    "Perhaps you need to install '" ++ name ++ "'\n" ++
    text ++ "\n"

/-- The start loop of `run`, from child `i`.  The second component is `none`
when every child started, else the way the process ended. -/
def startLoop (w : World) : List Cmd → Nat → List Event × Option Outcome
  | [], _ => ([], none)
  | cmd :: rest, i =>
    match Start w i cmd with
    | none =>
      let r := startLoop w rest (i + 1)
      (.start i :: r.1, r.2)
    | some (.execError name text) =>
      ([.start i, .stderr (missingToolMessage name text)], some (.exited 1))
    | some err => ([.start i], some (.panicked (.startFailed err)))

/-- The Go function `exitStatus`. -/
def exitStatus : Option GoError → Int × Bool
  | none => (0, false)
  | some (.exitError (some status)) => (status.ExitStatus, true)
  | some _ => (0, false)

/-- The wait loop of `run` (`for i := len(cmds) - 1; i >= 0; i--`); the
argument is `i + 1`. -/
def waitLoop (w : World) (commands : List (List String)) : Nat → List Event × Outcome
  | 0 => ([], .returned none)
  | i + 1 =>
    match w.wait i with
    | none =>
      let r := waitLoop w commands i
      (.wait i :: r.1, r.2)
    | some err =>
      match commands[i]? with
      | some (name :: _) =>
        if name = "xargs" ∧ (exitStatus (some err)).2 = true ∧ (exitStatus (some err)).1 = 123 then
          let r := waitLoop w commands i
          (.wait i :: r.1, r.2)
        else
          ([.wait i], .returned none)
      | _ => ([.wait i], .panicked .indexOutOfRange)

/-- The part of `run` after the wiring loop: `WriteHeader`, the start loop and
the wait loop. -/
def startAndWait (w : World) (commands : List (List String)) (cmds : List Cmd) (buf : String) :
    RunResult :=
  let started := startLoop w cmds 0
  match started.2 with
  | some o =>
    { commands := commands, wired := some cmds, trace := .writeHeader buf :: started.1, outcome := o }
  | none =>
    let waited := waitLoop w commands cmds.length
    { commands := commands, wired := some cmds,
      trace := .writeHeader buf :: (started.1 ++ waited.1), outcome := waited.2 }

/-- The Go function `run`. -/
def run (p : Pipeline) (w : World) (commands : List (List String)) : RunResult :=
  let commands := commands ++ [render p]
  match createCmds w commands with
  | none => { commands := commands, wired := none, trace := [], outcome := .panicked .indexOutOfRange }
  | some cmds =>
    let finalI : Int := (cmds.length : Int) - 1
    match wire w commands finalI cmds.length 0 cmds "" with
    | .outOfRange =>
      { commands := commands, wired := none, trace := [], outcome := .panicked .indexOutOfRange }
    | .err e => { commands := commands, wired := none, trace := [], outcome := .returned (some e) }
    | .ok cmds buf => startAndWait w commands cmds buf

/-- The Go method `Pipeline.Run`. -/
def Run (p : Pipeline) (w : World) : RunResult :=
  run p w (plan p w)

/-! ## Vocabulary of the statements -/

/-- The error, if any, that `Start` returns for child `j` of a command
sequence: it depends on the program name and on the world only. -/
def startResult (w : World) (commands : List (List String)) (j : Nat) : Option GoError :=
  match commands[j]? with
  | some (name :: args) => Start w j (Command w name args)
  | _ => none

/-- The indices of the children awaited, in the order of the calls of `Wait`. -/
def awaited (trace : List Event) : List Nat :=
  trace.filterMap fun e => match e with
    | .wait i => some i
    | _ => none

/-- The indices of the children on which `Start` was called, in order. -/
def startedChildren (trace : List Event) : List Nat :=
  trace.filterMap fun e => match e with
    | .start i => some i
    | _ => none

/-- What the wiring loop appends to its buffer from index `i` on, given the
joined stages still to come. -/
def headerFrom : Nat → List String → String
  | _, [] => ""
  | i, stage :: rest => ((if i > 0 then " | " else "") ++ stage) ++ headerFrom (i + 1) rest

/-- Child `j` after the iterations `i, i + 1, ...` of the wiring loop. -/
def wiredCmd (finalI : Int) (i j : Nat) (c : Cmd) : Cmd :=
  if j < i then c
  else
    { c with
      Stderr := some .parentStderr
      Stdout := if (j : Int) = finalI then some .parentStdout else some (.pipeWriter j)
      Stdin := if i < j then some (.pipeReader (j - 1)) else c.Stdin }

/-- Child `i` ends in a way the wait loop passes over: `Wait` returns `nil`,
or the child is `xargs` and exits with code 123. -/
def benign (w : World) (commands : List (List String)) (i : Nat) : Prop :=
  w.wait i = none ∨
    ∃ args, commands[i]? = some ("xargs" :: args) ∧
      w.wait i = some (.exitError (some (.exited 123)))

/-! ## Sample inputs -/

/-- A world in which every tool is found, every pipe and start succeeds, and
child `i` ends as `wait i` says. -/
def calmWorld (cpus : Int) (wait : Nat → Option GoError) : World :=
  { NumCPU := cpus
    isBareName := fun name => !name.data.elem (Char.ofNat 47)
    lookPath := fun name => .ok ("/usr/bin/" ++ name)
    pipe := fun _ => none
    startProcess := fun _ => none
    wait := wait }

/-- Scenario 1 of the spec: no indexer, no language restriction, inside a git
repository, needle and query string `TODO`. -/
def gitPipeline : Pipeline :=
  { env := { IsMdfindAvailable := false, WantsSpecificLanguages := false, IsInGitRepository := true,
             LangsAsRegexString := "", NdlPath := "/opt/ndl/ndl" }
    s := { Needle := ("TODO", true), Query := "TODO", AsBash := ["grep", "-Z", "-H", "-n", "-e", "TODO"] }
    h := { AsBash := ["find", ".", "-type", "f", "-print0"] } }

/-- Scenario 2 of the spec: the indexer is present, no language restriction. -/
def mdfindPipeline : Pipeline :=
  { env := { IsMdfindAvailable := true, WantsSpecificLanguages := false, IsInGitRepository := true,
             LangsAsRegexString := "", NdlPath := "/opt/ndl/ndl" }
    s := { Needle := ("foo", true), Query := "foo", AsBash := ["grep", "-Z", "-H", "-n", "-e", "foo"] }
    h := { AsBash := ["mdfind", "-0", "kMDItemTextContent == \"foo\""] } }

/-- Scenario 3 of the spec: the indexer is present, languages go and rust. -/
def langPipeline : Pipeline :=
  { env := { IsMdfindAvailable := true, WantsSpecificLanguages := true, IsInGitRepository := true,
             LangsAsRegexString := "\\.(go|rs)$", NdlPath := "/opt/ndl/ndl" }
    s := { Needle := ("foo", true), Query := "foo", AsBash := ["grep", "-Z", "-H", "-n", "-e", "foo"] }
    h := { AsBash := ["mdfind", "-0", "kMDItemTextContent == \"foo\""] } }

/-- A needle that begins with a hyphen, in the environment of scenario 1. -/
def dashPipeline : Pipeline :=
  { gitPipeline with s := { Needle := ("--version", true), Query := "--version", AsBash := [] } }

/-- Scenario 4 of the spec: `xargs`, child 1 of the three-stage plan, exits
with code 123; the other children exit with status zero. -/
def noMatchWorld : World :=
  calmWorld 8 fun i => if i = 1 then some (.exitError (some (.exited 123))) else none

/-- Scenario 5 of the spec: `xargs` is not on `PATH`. -/
def noXargsWorld : World :=
  { calmWorld 8 (fun _ => none) with
    lookPath := fun name =>
      if name = "xargs" then .error "exec: \"xargs\": executable file not found in $PATH"
      else .ok ("/usr/bin/" ++ name) }

/-- Child 1 exits with status 1, the other children with status zero: in the
four-stage plan of scenario 6 child 1 is the language filter, in the
three-stage plan of scenario 2 it is `xargs`. -/
def childOneFailsWorld : World :=
  calmWorld 8 fun i => if i = 1 then some (.exitError (some (.exited 1))) else none

/-- The two children of scenario 1 after the wiring loop. -/
def gitChildren : List Cmd :=
  [{ Path := "/usr/bin/git", Args := ["git", "grep", "--untracked", "-I", "-H", "-n", "-e", "TODO"],
     Stdout := some (.pipeWriter 0), Stderr := some .parentStderr },
   { Path := "/opt/ndl/ndl", Args := ["/opt/ndl/ndl", "--reformat-grep-output", "TODO"],
     Stdin := some (.pipeReader 0), Stdout := some .parentStdout, Stderr := some .parentStderr }]


/-! ## The wiring loop -/

theorem intercalate_go_headerFrom (i : Nat) (rest : List String) (acc : String) :
    String.intercalate.go acc " | " rest = acc ++ headerFrom (i + 1) rest := by
  induction rest generalizing acc i with
  | nil => simp [String.intercalate.go, headerFrom]
  | cons c rest ih =>
    simp only [String.intercalate.go, headerFrom]
    rw [ih (i + 1)]
    simp [String.append_assoc]

theorem intercalate_eq_headerFrom (stages : List String) :
    " | ".intercalate stages = headerFrom 0 stages := by
  cases stages with
  | nil => simp [String.intercalate, headerFrom]
  | cons c rest =>
    simp only [String.intercalate, headerFrom]
    rw [intercalate_go_headerFrom 0]
    simp

theorem getElem?_map_wiredCmd_of_lt (finalI : Int) {i j : Nat} (h : j < i) (o : Option Cmd) :
    o.map (wiredCmd finalI i j) = o := by
  cases o <;> simp [wiredCmd, h]

theorem StdoutPipe_ok {w : World} {i : Nat} {c c' : Cmd} {r : Stream}
    (h : StdoutPipe w i c = .ok (c', r)) :
    c.Stdout = none ∧ w.pipe i = none ∧ c' = { c with Stdout := some (.pipeWriter i) } ∧
      r = .pipeReader i := by
  unfold StdoutPipe at h
  cases hs : c.Stdout with
  | some s => simp [hs] at h
  | none =>
    cases hp : w.pipe i with
    | some text => simp [hs, hp] at h
    | none =>
      simp [hs, hp] at h
      exact ⟨rfl, rfl, h.1.symm, h.2.symm⟩

theorem wire_ok_spec (w : World) (commands : List (List String)) (finalI : Int) :
    ∀ (n i : Nat) (cmds : List Cmd) (buf : String) (cmds' : List Cmd) (buf' : String),
      i + n = cmds.length → commands.length = cmds.length → finalI = (cmds.length : Int) - 1 →
      wire w commands finalI n i cmds buf = .ok cmds' buf' →
      cmds'.length = cmds.length ∧ (∀ j, cmds'[j]? = cmds[j]?.map (wiredCmd finalI i j)) ∧
        buf' = buf ++ headerFrom i ((commands.drop i).map fun command => " ".intercalate command) := by
  intro n
  induction n with
  | zero =>
    intro i cmds buf cmds' buf' hn hc _ h
    simp only [wire, Wired.ok.injEq] at h
    rw [← h.1, ← h.2]
    refine ⟨rfl, ?_, ?_⟩
    · intro j
      rcases Nat.lt_or_ge j cmds.length with hj | hj
      · rw [getElem?_map_wiredCmd_of_lt finalI (by omega)]
      · rw [List.getElem?_eq_none hj]; rfl
    · have : commands.length ≤ i := by omega
      simp [List.drop_eq_nil_of_le this, headerFrom]
  | succ n ih =>
    intro i cmds buf cmds' buf' hn hc hf h
    have hi : i < cmds.length := by omega
    have hi' : i < commands.length := by omega
    rw [wire, List.getElem?_eq_getElem hi, List.getElem?_eq_getElem hi'] at h
    simp only at h
    rw [List.drop_eq_getElem_cons hi', List.map_cons, headerFrom]
    by_cases hfin : (i : Int) = finalI
    · rw [if_pos hfin] at h
      have hn0 : n = 0 := by omega
      subst hn0
      simp only [wire, Wired.ok.injEq] at h
      rw [← h.1, ← h.2]
      refine ⟨by simp, ?_, ?_⟩
      · intro j
        rw [List.getElem?_set]
        rcases Nat.lt_or_ge j cmds.length with hj | hj
        · by_cases hij : i = j
          · subst hij
            simp [hi, wiredCmd, hfin]
          · rw [if_neg hij, getElem?_map_wiredCmd_of_lt finalI (by omega)]
        · simp [List.getElem?_eq_none hj, show i ≠ j by omega]
      · have : commands.length ≤ i + 1 := by omega
        rw [List.drop_eq_nil_of_le this]
        split_ifs <;> simp [headerFrom, String.append_assoc]
    · rw [if_neg hfin] at h
      have hi1 : i + 1 < cmds.length := by omega
      cases hsp : StdoutPipe w i { cmds[i] with Stderr := some .parentStderr } with
      | error e => simp [hsp] at h
      | ok pr =>
        obtain ⟨c1, r⟩ := pr
        obtain ⟨-, -, rfl, rfl⟩ := StdoutPipe_ok hsp
        simp only [hsp] at h
        rw [List.getElem?_set_ne (by omega), List.getElem?_eq_getElem hi1] at h
        simp only at h
        · obtain ⟨hl, hj, hb⟩ := ih _ _ _ _ _ (by simp; omega) (by simpa using hc) (by simpa using hf) h
          refine ⟨by simpa using hl, ?_, ?_⟩
          · intro j
            rw [hj, List.getElem?_set, List.getElem?_set]
            rcases Nat.lt_or_ge j cmds.length with hjl | hjl
            · rw [List.getElem?_eq_getElem hjl]
              by_cases h1 : i + 1 = j
              · subst h1
                simp [wiredCmd, hi1]
              · by_cases h2 : i = j
                · subst h2
                  simp [wiredCmd, hi, hfin]
                · simp only [if_neg h1, if_neg h2, List.getElem?_eq_getElem hjl, Option.map_some']
                  simp only [wiredCmd]
                  rcases Nat.lt_or_ge j i with h3 | h3
                  · simp [h3, show j < i + 1 by omega]
                  · simp [show ¬ j < i by omega, show ¬ j < i + 1 by omega, show i < j by omega,
                      show i + 1 < j by omega]
            · simp [List.getElem?_eq_none hjl, show i + 1 ≠ j by omega, show i ≠ j by omega]
          · rw [hb]
            split_ifs <;> simp [String.append_assoc]

theorem wire_progress (w : World) (commands : List (List String)) (finalI : Int) :
    ∀ (n i : Nat) (cmds : List Cmd) (buf : String),
      i + n = cmds.length → commands.length = cmds.length → finalI = (cmds.length : Int) - 1 →
      (∀ (j : Nat) (c : Cmd), i ≤ j → cmds[j]? = some c → c.Stdout = none) →
      (∃ cmds' buf', wire w commands finalI n i cmds buf = .ok cmds' buf') ∨
        (∃ j text, j + 1 < cmds.length ∧ w.pipe j = some text ∧
          wire w commands finalI n i cmds buf = .err (.other text)) := by
  intro n
  induction n with
  | zero =>
    intro i cmds buf _ _ _ _
    exact Or.inl ⟨cmds, buf, rfl⟩
  | succ n ih =>
    intro i cmds buf hn hc hf hout
    have hi : i < cmds.length := by omega
    have hi' : i < commands.length := by omega
    rw [wire, List.getElem?_eq_getElem hi, List.getElem?_eq_getElem hi']
    simp only
    by_cases hfin : (i : Int) = finalI
    · rw [if_pos hfin]
      have hn0 : n = 0 := by omega
      subst hn0
      exact Or.inl ⟨_, _, rfl⟩
    · rw [if_neg hfin]
      have hi1 : i + 1 < cmds.length := by omega
      have hnone : cmds[i].Stdout = none := hout i _ (Nat.le_refl i) (List.getElem?_eq_getElem hi)
      cases hp : w.pipe i with
      | some text =>
        refine Or.inr ⟨i, text, hi1, hp, ?_⟩
        simp [StdoutPipe, hnone, hp]
      | none =>
        simp only [StdoutPipe, hnone, hp, Option.isSome_none, Bool.false_eq_true, if_false]
        rw [List.getElem?_set_ne (by omega), List.getElem?_eq_getElem hi1]
        simp only
        refine Or.imp_right ?_ (ih (i + 1) _ _ ?_ ?_ ?_ ?_)
        · rintro ⟨j, text, h1, h2, h3⟩
          exact ⟨j, text, by simpa using h1, h2, h3⟩
        · simp; omega
        · simpa using hc
        · simpa using hf
        · intro j c hj hjc
          rw [List.getElem?_set, List.getElem?_set] at hjc
          by_cases h1 : i + 1 = j
          · subst h1
            simp [hi1] at hjc
            have h2 := hout (i + 1) cmds[i + 1] (by omega) (List.getElem?_eq_getElem hi1)
            rw [← hjc]
            exact h2
          · rw [if_neg h1, if_neg (by omega)] at hjc
            exact hout j c (by omega) hjc

/-! ## Creating the children -/

theorem createCmds_spec (w : World) :
    ∀ (commands : List (List String)) (cmds : List Cmd), createCmds w commands = some cmds →
      cmds.length = commands.length ∧
        ∀ (j : Nat) (c : Cmd), cmds[j]? = some c →
          ∃ name args, commands[j]? = some (name :: args) ∧ c = Command w name args := by
  intro commands
  induction commands with
  | nil =>
    intro cmds h
    simp only [createCmds, Option.some.injEq] at h
    subst h
    simp
  | cons command rest ih =>
    intro cmds h
    cases command with
    | nil => simp [createCmds] at h
    | cons name args =>
      simp only [createCmds, Option.map_eq_some'] at h
      obtain ⟨tl, htl, rfl⟩ := h
      obtain ⟨hl, hp⟩ := ih tl htl
      refine ⟨by simp [hl], ?_⟩
      intro j c hj
      cases j with
      | zero =>
        simp only [List.getElem?_cons_zero, Option.some.injEq] at hj
        exact ⟨name, args, by simp, hj.symm⟩
      | succ j =>
        simp only [List.getElem?_cons_succ] at hj
        simpa using hp j c hj

theorem createCmds_isSome (w : World) :
    ∀ commands : List (List String), (∀ c ∈ commands, c ≠ []) →
      ∃ cmds, createCmds w commands = some cmds := by
  intro commands
  induction commands with
  | nil => intro _; exact ⟨[], rfl⟩
  | cons command rest ih =>
    intro h
    cases command with
    | nil => exact absurd rfl (h [] (by simp))
    | cons name args =>
      obtain ⟨tl, htl⟩ := ih (fun c hc => h c (by simp [hc]))
      exact ⟨Command w name args :: tl, by simp [createCmds, htl]⟩

theorem createCmds_nonempty (w : World) :
    ∀ (commands : List (List String)) (cmds : List Cmd), createCmds w commands = some cmds →
      ∀ c ∈ commands, c ≠ [] := by
  intro commands
  induction commands with
  | nil => intro _ _ c hc; simp at hc
  | cons command rest ih =>
    intro cmds h c hc
    cases command with
    | nil => simp [createCmds] at h
    | cons name args =>
      simp only [createCmds, Option.map_eq_some'] at h
      obtain ⟨tl, htl, -⟩ := h
      rcases List.mem_cons.mp hc with rfl | hc
      · simp
      · exact ih tl htl c hc

theorem Command_Stdout (w : World) (name : String) (args : List String) :
    (Command w name args).Stdout = none := by
  unfold Command
  split
  · split <;> rfl
  · rfl

theorem Command_Args (w : World) (name : String) (args : List String) :
    (Command w name args).Args = name :: args := by
  unfold Command
  split
  · split <;> rfl
  · rfl

/-! ## Starting and awaiting -/

theorem Start_wiredCmd (w : World) (finalI : Int) (i j k : Nat) (c : Cmd) :
    Start w k (wiredCmd finalI i j c) = Start w k c := by
  have h : (wiredCmd finalI i j c).lookPathErr = c.lookPathErr := by
    unfold wiredCmd
    split <;> rfl
  unfold Start
  rw [h]

theorem startLoop_all (w : World) :
    ∀ (cmds : List Cmd) (i : Nat),
      (∀ (j : Nat) (c : Cmd), cmds[j]? = some c → Start w (i + j) c = none) →
      startLoop w cmds i = ((List.range' i cmds.length).map Event.start, none) := by
  intro cmds
  induction cmds with
  | nil => intro i _; rfl
  | cons c rest ih =>
    intro i h
    have h0 : Start w i c = none := by simpa using h 0 c (by simp)
    have hr := ih (i + 1) (fun j c hj => by
      have := h (j + 1) c (by simpa using hj)
      rwa [show i + 1 + j = i + (j + 1) by omega])
    simp [startLoop, h0, hr, List.range'_succ]

theorem startLoop_missing (w : World) :
    ∀ (cmds : List Cmd) (i k : Nat) (c : Cmd) (name text : String),
      cmds[k]? = some c →
      (∀ (j : Nat) (c : Cmd), j < k → cmds[j]? = some c → Start w (i + j) c = none) →
      Start w (i + k) c = some (.execError name text) →
      startLoop w cmds i =
        ((List.range' i (k + 1)).map Event.start ++ [.stderr (missingToolMessage name text)],
          some (.exited 1)) := by
  intro cmds
  induction cmds with
  | nil => intro i k c name text hk; simp at hk
  | cons c0 rest ih =>
    intro i k c name text hk hlt hfail
    cases k with
    | zero =>
      simp only [List.getElem?_cons_zero, Option.some.injEq] at hk
      subst hk
      simp only [Nat.add_zero] at hfail
      simp [startLoop, hfail, List.range'_succ]
    | succ k =>
      have h0 : Start w i c0 = none := by simpa using hlt 0 c0 (by omega) (by simp)
      have hr := ih (i + 1) k c name text (by simpa using hk)
        (fun j c hj hjc => by
          have := hlt (j + 1) c (by omega) (by simpa using hjc)
          rwa [show i + 1 + j = i + (j + 1) by omega])
        (by rwa [show i + 1 + k = i + (k + 1) by omega])
      simp [startLoop, h0, hr, List.range'_succ]

theorem waitLoop_benign (w : World) (commands : List (List String)) :
    ∀ n : Nat, (∀ i, i < n → benign w commands i) →
      waitLoop w commands n = ((List.range n).reverse.map Event.wait, .returned none) := by
  intro n
  induction n with
  | zero => intro _; rfl
  | succ n ih =>
    intro h
    have hr := ih (fun i hi => h i (by omega))
    rcases h n (by omega) with h0 | ⟨args, hc, h0⟩
    · simp [waitLoop, h0, hr, List.range_succ]
    · simp [waitLoop, h0, hc, hr, List.range_succ, exitStatus, WaitStatus.ExitStatus]

theorem waitLoop_returns (w : World) (commands : List (List String)) :
    ∀ n : Nat, (∀ i, i < n → ∃ name args, commands[i]? = some (name :: args)) →
      (waitLoop w commands n).2 = .returned none := by
  intro n
  induction n with
  | zero => intro _; rfl
  | succ n ih =>
    intro h
    have hr := ih (fun i hi => h i (by omega))
    obtain ⟨name, args, hc⟩ := h n (by omega)
    cases h0 : w.wait n with
    | none => simp [waitLoop, h0, hr]
    | some err =>
      simp only [waitLoop, h0, hc]
      split <;> simp [hr]

/-! ## The three ways through `run` -/

theorem render_ne_nil (p : Pipeline) : render p ≠ [] := by
  simp [render]

theorem run_commands (p : Pipeline) (w : World) (commands : List (List String)) :
    (run p w commands).commands = commands ++ [render p] := by
  unfold run
  simp only
  split
  · rfl
  · split
    · rfl
    · rfl
    · simp only [startAndWait]
      split <;> rfl

theorem run_cases (p : Pipeline) (w : World) (commands : List (List String)) :
    ((∃ c ∈ commands, c = []) ∧
        run p w commands =
          { commands := commands ++ [render p], wired := none, trace := [],
            outcome := .panicked .indexOutOfRange }) ∨
      (∃ j text, j < commands.length ∧ w.pipe j = some text ∧
        (∀ c ∈ commands, c ≠ []) ∧
        run p w commands =
          { commands := commands ++ [render p], wired := none, trace := [],
            outcome := .returned (some (.other text)) }) ∨
      (∃ cmds0 cmds, createCmds w (commands ++ [render p]) = some cmds0 ∧
        cmds.length = commands.length + 1 ∧
        (∀ j : Nat, cmds[j]? = cmds0[j]?.map (wiredCmd (commands.length : Int) 0 j)) ∧
        run p w commands = startAndWait w (commands ++ [render p]) cmds
          (" | ".intercalate ((commands ++ [render p]).map fun command => " ".intercalate command))) := by
  cases hc : createCmds w (commands ++ [render p]) with
  | none =>
    left
    refine ⟨?_, by simp [run, hc]⟩
    by_contra hne
    push_neg at hne
    obtain ⟨cmds, h⟩ := createCmds_isSome w (commands ++ [render p]) (by
      intro c hmem
      rcases List.mem_append.mp hmem with h | h
      · exact hne c h
      · simp only [List.mem_singleton] at h
        rw [h]; exact render_ne_nil p)
    rw [h] at hc
    cases hc
  | some cmds0 =>
    right
    obtain ⟨hlen, hpt⟩ := createCmds_spec w _ _ hc
    have hlen' : cmds0.length = commands.length + 1 := by simpa using hlen
    have hfin : ((cmds0.length : Int) - 1) = (commands.length : Int) := by omega
    have hne : ∀ c ∈ commands, c ≠ [] := fun c hmem =>
      createCmds_nonempty w _ _ hc c (List.mem_append.mpr (Or.inl hmem))
    have hout : ∀ (j : Nat) (c : Cmd), 0 ≤ j → cmds0[j]? = some c → c.Stdout = none := by
      intro j c _ hj
      obtain ⟨name, args, -, rfl⟩ := hpt j c hj
      exact Command_Stdout w name args
    rcases wire_progress w (commands ++ [render p]) ((cmds0.length : Int) - 1) cmds0.length 0 cmds0 ""
        (by simp) hlen.symm rfl hout with ⟨cmds, buf, hw⟩ | ⟨j, text, hj, hp, hw⟩
    · right
      obtain ⟨h1, h2, h3⟩ := wire_ok_spec w _ _ _ _ _ _ _ _ (by simp) hlen.symm rfl hw
      refine ⟨cmds0, cmds, rfl, by omega, ?_, ?_⟩
      · intro j
        rw [h2 j, hfin]
      · rw [intercalate_eq_headerFrom, run]
        simp only [hc, hw]
        rw [h3]
        simp
    · left
      refine ⟨j, text, by omega, hp, hne, ?_⟩
      simp [run, hc, hw]

/-! ## Facts about the event trace -/

theorem startLoop_events (w : World) :
    ∀ (cmds : List Cmd) (i : Nat) (e : Event), e ∈ (startLoop w cmds i).1 →
      (∃ j, e = .start j) ∨ (∃ text, e = .stderr text) := by
  intro cmds
  induction cmds with
  | nil => intro i e h; simp [startLoop] at h
  | cons c rest ih =>
    intro i e h
    unfold startLoop at h
    split at h
    · simp only [List.mem_cons] at h
      rcases h with h | h
      · exact Or.inl ⟨i, h⟩
      · exact ih (i + 1) e h
    · simp only [List.mem_cons, List.mem_singleton, List.not_mem_nil, or_false] at h
      rcases h with h | h
      · exact Or.inl ⟨i, h⟩
      · exact Or.inr ⟨_, h⟩
    · simp only [List.mem_singleton] at h
      exact Or.inl ⟨i, h⟩

theorem waitLoop_events (w : World) (commands : List (List String)) :
    ∀ (n : Nat) (e : Event), e ∈ (waitLoop w commands n).1 → ∃ j, e = .wait j := by
  intro n
  induction n with
  | zero => intro e h; simp [waitLoop] at h
  | succ n ih =>
    intro e h
    unfold waitLoop at h
    split at h
    · simp only [List.mem_cons] at h
      rcases h with h | h
      · exact ⟨n, h⟩
      · exact ih e h
    · split at h
      · split at h
        · simp only [List.mem_cons] at h
          rcases h with h | h
          · exact ⟨n, h⟩
          · exact ih e h
        · simp only [List.mem_singleton] at h
          exact ⟨n, h⟩
      · simp only [List.mem_singleton] at h
        exact ⟨n, h⟩

theorem startAndWait_wired (w : World) (commands : List (List String)) (cmds : List Cmd)
    (buf : String) : (startAndWait w commands cmds buf).wired = some cmds := by
  unfold startAndWait
  simp only
  split <;> rfl

theorem startAndWait_trace (w : World) (commands : List (List String)) (cmds : List Cmd)
    (buf : String) :
    ∃ rest, (startAndWait w commands cmds buf).trace = .writeHeader buf :: rest ∧
      ∀ text, Event.writeHeader text ∉ rest := by
  unfold startAndWait
  simp only
  split
  · refine ⟨_, rfl, ?_⟩
    intro text hmem
    rcases startLoop_events w cmds 0 _ hmem with ⟨j, h⟩ | ⟨t, h⟩ <;> cases h
  · refine ⟨_, rfl, ?_⟩
    intro text hmem
    rcases List.mem_append.mp hmem with hmem | hmem
    · rcases startLoop_events w cmds 0 _ hmem with ⟨j, h⟩ | ⟨t, h⟩ <;> cases h
    · obtain ⟨j, h⟩ := waitLoop_events w commands _ _ hmem
      cases h

/-- Child `j` of a wired pipeline, read off the command sequence. -/
theorem wired_child (w : World) (commands : List (List String)) (cmds0 cmds : List Cmd)
    (finalI : Int) (hc : createCmds w commands = some cmds0)
    (hpt : ∀ j : Nat, cmds[j]? = cmds0[j]?.map (wiredCmd finalI 0 j))
    (j : Nat) (hj : j < commands.length) :
    ∃ name args, commands[j]? = some (name :: args) ∧
      cmds[j]? = some (wiredCmd finalI 0 j (Command w name args)) := by
  obtain ⟨hlen, hget⟩ := createCmds_spec w _ _ hc
  have hj0 : j < cmds0.length := by omega
  obtain ⟨name, args, h1, h2⟩ := hget j cmds0[j] (List.getElem?_eq_getElem hj0)
  refine ⟨name, args, h1, ?_⟩
  rw [hpt j, List.getElem?_eq_getElem hj0, h2]
  rfl


/-! # Properties of the planner and of the executor -/

/-! ## The query planner -/

theorem useGitGrep_eq_true {p : Pipeline} (hm : p.env.IsMdfindAvailable = false)
    (hl : p.env.WantsSpecificLanguages = false) (hg : p.env.IsInGitRepository = true) :
    useGitGrep p = true := by
  simp [useGitGrep, hm, hl, hg]

theorem useGitGrep_eq_false {p : Pipeline}
    (h : ¬(p.env.IsMdfindAvailable = false ∧ p.env.WantsSpecificLanguages = false ∧
      p.env.IsInGitRepository = true)) : useGitGrep p = false := by
  unfold useGitGrep
  cases hm : p.env.IsMdfindAvailable <;> cases hl : p.env.WantsSpecificLanguages <;>
    cases hg : p.env.IsInGitRepository <;> simp_all

theorem Run_commands_git (p : Pipeline) (w : World) (h : useGitGrep p = true) :
    (Run p w).commands =
      [["git", "grep", "--untracked", "-I", "-H", "-n", "-e", p.s.Needle.1], render p] := by
  simp [Run, run_commands, plan, h]

theorem Run_commands_multi (p : Pipeline) (w : World) (h : useGitGrep p = false) :
    (Run p w).commands =
      p.h.AsBash :: ((if p.env.WantsSpecificLanguages then [languageFilter p] else []) ++
        [fanout w ++ p.s.AsBash, render p]) := by
  cases hl : p.env.WantsSpecificLanguages <;> simp [Run, run_commands, plan, h, hl]

/-- C1: when mdfind is unavailable, no language is requested and the working
directory is in a git repository, the command sequence of `Run` (renderer
appended) has exactly two stages, `git grep --untracked -I -H -n -e <needle>`
and `<NdlPath> --reformat-grep-output <query>`; the needle is the word right
after `-e`, whatever it begins with, and the children are created with exactly
these argument vectors. -/
theorem Run_git_grep_plan (p : Pipeline) (w : World)
    (hm : p.env.IsMdfindAvailable = false) (hl : p.env.WantsSpecificLanguages = false)
    (hg : p.env.IsInGitRepository = true) :
    (Run p w).commands =
        [["git", "grep", "--untracked", "-I", "-H", "-n", "-e", p.s.Needle.1],
         [p.env.NdlPath, "--reformat-grep-output", p.s.Query]] ∧
      (Run p w).commands.length = 2 ∧
      (createCmds w (Run p w).commands).map (fun cmds => cmds.map Cmd.Args) =
        some [["git", "grep", "--untracked", "-I", "-H", "-n", "-e", p.s.Needle.1],
          [p.env.NdlPath, "--reformat-grep-output", p.s.Query]] := by
  rw [Run_commands_git p w (useGitGrep_eq_true hm hl hg)]
  refine ⟨rfl, rfl, ?_⟩
  simp [createCmds, Command_Args, render]

/-- C2: in every other environment the command sequence of `Run` (renderer
appended) is the haystack command, then the language filter exactly when
`WantsSpecificLanguages` holds, then the fan-out stage, then the renderer; so
its length is 4 with a language restriction and 3 without. -/
theorem Run_multi_stage_plan (p : Pipeline) (w : World)
    (h : ¬(p.env.IsMdfindAvailable = false ∧ p.env.WantsSpecificLanguages = false ∧
      p.env.IsInGitRepository = true)) :
    (Run p w).commands =
        p.h.AsBash :: ((if p.env.WantsSpecificLanguages then [languageFilter p] else []) ++
          [fanout w ++ p.s.AsBash, render p]) ∧
      (Run p w).commands.head? = some p.h.AsBash ∧
      (Run p w).commands.getLast? = some (render p) ∧
      (Run p w).commands[(Run p w).commands.length - 2]? = some (fanout w ++ p.s.AsBash) ∧
      (((Run p w).commands.drop 1).dropLast.dropLast = [languageFilter p] ↔
        p.env.WantsSpecificLanguages = true) ∧
      (((Run p w).commands.drop 1).dropLast.dropLast = [] ↔
        p.env.WantsSpecificLanguages = false) ∧
      (Run p w).commands.length = (if p.env.WantsSpecificLanguages then 4 else 3) := by
  rw [Run_commands_multi p w (useGitGrep_eq_false h)]
  cases hl : p.env.WantsSpecificLanguages <;> simp [List.dropLast]

/-- C9: the fan-out stage is `xargs -0 -n 1000 -P <NumCPU in decimal>` followed
by the needle command, the language filter is `grep -z -Z -E -e <regex>`, both
as stages of the multi-stage plan; with haystack `mdfind -0 <q>`, needle command
`grep -Z -H -n -e foo` and no language restriction the whole plan is
haystack, `xargs -0 -n 1000 -P <CPU> grep -Z -H -n -e foo`, renderer. -/
theorem fanout_and_filter_stages (p : Pipeline) (w : World) :
    fanout w ++ p.s.AsBash
        = ["xargs", "-0", "-n", "1000", "-P", toString w.NumCPU] ++ p.s.AsBash ∧
      languageFilter p = ["grep", "-z", "-Z", "-E", "-e", p.env.LangsAsRegexString] ∧
      (useGitGrep p = false → p.env.WantsSpecificLanguages = true →
        (Run p w).commands =
          [p.h.AsBash,
           ["grep", "-z", "-Z", "-E", "-e", p.env.LangsAsRegexString],
           ["xargs", "-0", "-n", "1000", "-P", toString w.NumCPU] ++ p.s.AsBash,
           [p.env.NdlPath, "--reformat-grep-output", p.s.Query]]) ∧
      (useGitGrep p = false → p.env.WantsSpecificLanguages = false →
        (Run p w).commands =
          [p.h.AsBash,
           ["xargs", "-0", "-n", "1000", "-P", toString w.NumCPU] ++ p.s.AsBash,
           [p.env.NdlPath, "--reformat-grep-output", p.s.Query]]) ∧
      (∀ q : String, p.env.IsMdfindAvailable = true → p.env.WantsSpecificLanguages = false →
        p.h.AsBash = ["mdfind", "-0", q] → p.s.AsBash = ["grep", "-Z", "-H", "-n", "-e", "foo"] →
        p.s.Query = "foo" →
        (Run p w).commands =
          [["mdfind", "-0", q],
           ["xargs", "-0", "-n", "1000", "-P", toString w.NumCPU, "grep", "-Z", "-H", "-n", "-e", "foo"],
           [p.env.NdlPath, "--reformat-grep-output", "foo"]]) := by
  refine ⟨rfl, rfl, ?_, ?_, ?_⟩
  · intro h hl
    rw [Run_commands_multi p w h]
    simp [hl, languageFilter, fanout, render]
  · intro h hl
    rw [Run_commands_multi p w h]
    simp [hl, fanout, render]
  · intro q hm hl hh hs hq
    rw [Run_commands_multi p w (by simp [useGitGrep, hm])]
    simp [hl, hh, hs, hq, fanout, render]


/-! ## The executor -/

theorem awaited_header_cons (text : String) (t : List Event) :
    awaited (.writeHeader text :: t) = awaited t := by
  simp [awaited]

theorem awaited_append (s t : List Event) : awaited (s ++ t) = awaited s ++ awaited t := by
  simp [awaited]

theorem awaited_starts (l : List Nat) : awaited (l.map Event.start) = [] := by
  simp [awaited]

theorem awaited_waits (l : List Nat) : awaited (l.map Event.wait) = l := by
  induction l with
  | nil => rfl
  | cons a l ih => simpa [awaited] using ih

theorem startedChildren_header_cons (text : String) (t : List Event) :
    startedChildren (.writeHeader text :: t) = startedChildren t := by
  simp [startedChildren]

theorem startedChildren_append (s t : List Event) :
    startedChildren (s ++ t) = startedChildren s ++ startedChildren t := by
  simp [startedChildren]

theorem startedChildren_starts (l : List Nat) : startedChildren (l.map Event.start) = l := by
  induction l with
  | nil => rfl
  | cons a l ih => simpa [startedChildren] using ih

theorem startedChildren_waits (l : List Nat) : startedChildren (l.map Event.wait) = [] := by
  simp [startedChildren]

theorem mem_append_render {p : Pipeline} {commands : List (List String)}
    (hne : ∀ c ∈ commands, c ≠ []) : ∀ c ∈ commands ++ [render p], c ≠ [] := by
  intro c hmem
  rcases List.mem_append.mp hmem with h | h
  · exact hne c h
  · simp only [List.mem_singleton] at h
    rw [h]
    exact render_ne_nil p

/-- When no command is empty and no pipe is refused, `run` gets to the start
loop with the children wired as `wiredCmd` says. -/
theorem run_reaches_start (p : Pipeline) (w : World) (commands : List (List String))
    (hne : ∀ c ∈ commands, c ≠ [])
    (hpipe : ∀ i, i < commands.length → w.pipe i = none) :
    ∃ cmds0 cmds, createCmds w (commands ++ [render p]) = some cmds0 ∧
      cmds.length = commands.length + 1 ∧
      (∀ j : Nat, cmds[j]? = cmds0[j]?.map (wiredCmd (commands.length : Int) 0 j)) ∧
      run p w commands = startAndWait w (commands ++ [render p]) cmds
        (" | ".intercalate ((commands ++ [render p]).map fun command => " ".intercalate command)) := by
  rcases run_cases p w commands with ⟨⟨c, hc, rfl⟩, -⟩ | ⟨j, text, hj, hp, -⟩ | h
  · exact absurd rfl (hne [] hc)
  · rw [hpipe j hj] at hp
    cases hp
  · exact h

theorem Start_of_wired (w : World) (commands : List (List String)) (cmds0 cmds : List Cmd)
    (finalI : Int) (hc : createCmds w commands = some cmds0)
    (hlen : cmds.length = commands.length)
    (hpt : ∀ j : Nat, cmds[j]? = cmds0[j]?.map (wiredCmd finalI 0 j))
    (j : Nat) (c : Cmd) (hj : cmds[j]? = some c) :
    Start w j c = startResult w commands j := by
  have hjl : j < commands.length := by
    have := (List.getElem?_eq_some.mp hj).1
    omega
  obtain ⟨name, args, h1, h2⟩ := wired_child w commands cmds0 cmds finalI hc hpt j hjl
  rw [h2, Option.some.injEq] at hj
  rw [← hj, Start_wiredCmd, startResult, h1]

/-- When moreover every child starts, the result of `run` is the header, the
starts in order, and whatever the wait loop does. -/
theorem run_all_started (p : Pipeline) (w : World) (commands : List (List String))
    (hne : ∀ c ∈ commands, c ≠ [])
    (hpipe : ∀ i, i < commands.length → w.pipe i = none)
    (hstart : ∀ i, i ≤ commands.length → startResult w (commands ++ [render p]) i = none) :
    (run p w commands).trace =
        .writeHeader (" | ".intercalate
            ((commands ++ [render p]).map fun command => " ".intercalate command)) ::
          ((List.range (commands.length + 1)).map Event.start ++
            (waitLoop w (commands ++ [render p]) (commands.length + 1)).1) ∧
      (run p w commands).outcome =
        (waitLoop w (commands ++ [render p]) (commands.length + 1)).2 := by
  obtain ⟨cmds0, cmds, hc, hlen, hpt, hrun⟩ := run_reaches_start p w commands hne hpipe
  have hs : startLoop w cmds 0 = ((List.range' 0 cmds.length).map Event.start, none) := by
    apply startLoop_all
    intro j c hj
    have hjl : j < cmds.length := (List.getElem?_eq_some.mp hj).1
    rw [Nat.zero_add, Start_of_wired w _ cmds0 cmds _ hc (by simpa using hlen) hpt j c hj]
    exact hstart j (by omega)
  rw [hrun]
  simp [startAndWait, hs, hlen, List.range_eq_range']

/-- Once every child has started, `run` returns `nil`, whatever the children's
termination statuses are. -/
theorem run_returns_nil_once_started (p : Pipeline) (w : World) (commands : List (List String))
    (hne : ∀ c ∈ commands, c ≠ [])
    (hpipe : ∀ i, i < commands.length → w.pipe i = none)
    (hstart : ∀ i, i ≤ commands.length → startResult w (commands ++ [render p]) i = none) :
    (run p w commands).outcome = .returned none := by
  rw [(run_all_started p w commands hne hpipe hstart).2]
  apply waitLoop_returns
  intro i hi
  have hil : i < (commands ++ [render p]).length := by simpa using hi
  have hmem := mem_append_render (p := p) hne _ (List.getElem_mem hil)
  rw [List.getElem?_eq_getElem hil]
  cases hci : (commands ++ [render p])[i] with
  | nil => exact absurd hci hmem
  | cons name args => exact ⟨name, args, rfl⟩

/-- C4: when every child starts and every stage either ends with `Wait`
returning `nil` (exit status zero) or is `xargs` exiting with code 123, `run`
awaits every child, last stage first, and returns `nil`. -/
theorem run_succeeds_when_benign (p : Pipeline) (w : World) (commands : List (List String))
    (hne : ∀ c ∈ commands, c ≠ [])
    (hpipe : ∀ i, i < commands.length → w.pipe i = none)
    (hstart : ∀ i, i ≤ commands.length → startResult w (commands ++ [render p]) i = none)
    (hwait : ∀ i, i ≤ commands.length →
      w.wait i = none ∨
        ∃ args, (commands ++ [render p])[i]? = some ("xargs" :: args) ∧
          w.wait i = some (.exitError (some (.exited 123)))) :
    (run p w commands).outcome = .returned none ∧
      awaited (run p w commands).trace = (List.range (commands.length + 1)).reverse := by
  obtain ⟨htrace, hout⟩ := run_all_started p w commands hne hpipe hstart
  have hw := waitLoop_benign w (commands ++ [render p]) (commands.length + 1)
    (fun i hi => hwait i (by omega))
  rw [hout, htrace, hw]
  refine ⟨rfl, ?_⟩
  rw [awaited_header_cons, awaited_append, awaited_starts, awaited_waits]
  rfl


theorem wiredCmd_zero (finalI : Int) (j : Nat) (c : Cmd) :
    (wiredCmd finalI 0 j c).Args = c.Args ∧
      (wiredCmd finalI 0 j c).Stderr = some .parentStderr ∧
      (wiredCmd finalI 0 j c).Stdout =
        (if (j : Int) = finalI then some .parentStdout else some (.pipeWriter j)) ∧
      (wiredCmd finalI 0 j c).Stdin = (if 0 < j then some (.pipeReader (j - 1)) else c.Stdin) := by
  simp [wiredCmd]

/-- C6: when the wiring loop of `run` ran to its end, there is one child per
command, created with the command's words; the last child is the renderer and
its stdout is the parent's stdout; for every non-terminal index `i` the stdout
of child `i` is the write end and the stdin of child `i + 1` the read end of
the pipe made for child `i`; every child's stderr is the parent's stderr. -/
theorem wiring_binds_streams (p : Pipeline) (w : World) (commands : List (List String))
    (cmds : List Cmd) (h : (run p w commands).wired = some cmds) :
    cmds.length = commands.length + 1 ∧
      cmds.map Cmd.Args = commands ++ [render p] ∧
      (∃ last, cmds.getLast? = some last ∧ cmds[commands.length]? = some last ∧
        last.Args = render p ∧ last.Stdout = some .parentStdout) ∧
      (∀ i, i < commands.length →
        ∃ a b, cmds[i]? = some a ∧ cmds[i + 1]? = some b ∧
          a.Stdout = some (.pipeWriter i) ∧ b.Stdin = some (.pipeReader i)) ∧
      (∀ c ∈ cmds, c.Stderr = some .parentStderr) := by
  rcases run_cases p w commands with ⟨-, hr⟩ | ⟨j, text, -, -, -, hr⟩ |
      ⟨cmds0, cmds1, hc, hlen, hpt, hr⟩
  · rw [hr] at h; cases h
  · rw [hr] at h; cases h
  · rw [hr, startAndWait_wired, Option.some.injEq] at h
    subst h
    have hcl : (commands ++ [render p]).length = commands.length + 1 := by simp
    have child := fun j hj =>
      wired_child w (commands ++ [render p]) cmds0 cmds1 (commands.length : Int) hc hpt j hj
    refine ⟨hlen, ?_, ?_, ?_, ?_⟩
    · apply List.ext_getElem?
      intro j
      rw [List.getElem?_map]
      rcases Nat.lt_or_ge j (commands.length + 1) with hj | hj
      · obtain ⟨name, args, h1, h2⟩ := child j (by omega)
        rw [h1, h2]
        simp [(wiredCmd_zero _ j _).1, Command_Args]
      · rw [List.getElem?_eq_none (by omega), List.getElem?_eq_none (by omega)]
        rfl
    · obtain ⟨name, args, h1, h2⟩ := child commands.length (by omega)
      refine ⟨_, ?_, h2, ?_, ?_⟩
      · rw [List.getLast?_eq_getElem?, hlen]
        exact h2
      · rw [(wiredCmd_zero _ _ _).1, Command_Args]
        simpa using h1.symm
      · rw [(wiredCmd_zero _ _ _).2.2.1]
        simp
    · intro i hi
      obtain ⟨n1, a1, -, h1⟩ := child i (by omega)
      obtain ⟨n2, a2, -, h2⟩ := child (i + 1) (by omega)
      refine ⟨_, _, h1, h2, ?_, ?_⟩
      · rw [(wiredCmd_zero _ _ _).2.2.1, if_neg (by omega)]
      · rw [(wiredCmd_zero _ _ _).2.2.2]
        simp
    · intro c hmem
      obtain ⟨j, hj, rfl⟩ := List.getElem_of_mem hmem
      obtain ⟨name, args, -, h2⟩ := child j (by omega)
      rw [List.getElem?_eq_getElem hj, Option.some.injEq] at h2
      rw [h2]
      exact (wiredCmd_zero _ _ _).2.1

theorem git_header (ndl : String) :
    " | ".intercalate ([["git", "grep", "--untracked", "-I", "-H", "-n", "-e", "TODO"],
        [ndl, "--reformat-grep-output", "TODO"]].map fun command => " ".intercalate command)
      = "git grep --untracked -I -H -n -e TODO | " ++ ndl ++ " --reformat-grep-output TODO" := by
  have h1 : " ".intercalate ["git", "grep", "--untracked", "-I", "-H", "-n", "-e", "TODO"]
      = "git grep --untracked -I -H -n -e TODO" := by decide
  have h2 : "git grep --untracked -I -H -n -e TODO" ++ " | "
      = "git grep --untracked -I -H -n -e TODO | " := by decide
  have h3 : " " ++ "--reformat-grep-output" ++ " " ++ "TODO" = " --reformat-grep-output TODO" := by
    decide
  simp only [List.map_cons, List.map_nil, h1]
  simp only [String.intercalate, String.intercalate.go, ← h3, ← h2, String.append_assoc]

/-- C7: whenever `run` writes anything, the first thing is the header, written
once, and it is the stages joined by " | ", each stage being its words joined
by single blanks; so it comes before every `Start`.  It is written whenever the
wiring loop ran to its end.  For the git plan with needle and query string
`TODO` it reads
`git grep --untracked -I -H -n -e TODO | <NdlPath> --reformat-grep-output TODO`. -/
theorem header_written_before_start (p : Pipeline) (w : World) (commands : List (List String)) :
    ((run p w commands).trace = [] ∨
        ∃ rest, (run p w commands).trace =
            .writeHeader (" | ".intercalate
              ((commands ++ [render p]).map fun command => " ".intercalate command)) :: rest ∧
          ∀ text, Event.writeHeader text ∉ rest) ∧
      ((run p w commands).wired ≠ none → (run p w commands).trace ≠ []) ∧
      (p.env.IsMdfindAvailable = false → p.env.WantsSpecificLanguages = false →
        p.env.IsInGitRepository = true → p.s.Needle.1 = "TODO" → p.s.Query = "TODO" →
        (Run p w).wired ≠ none →
        (Run p w).trace.head? = some (.writeHeader
          ("git grep --untracked -I -H -n -e TODO | " ++ p.env.NdlPath ++
            " --reformat-grep-output TODO"))) := by
  have key : ∀ cs : List (List String),
      ((run p w cs).wired = none ∧ (run p w cs).trace = []) ∨
        ∃ rest, (run p w cs).trace =
            .writeHeader (" | ".intercalate
              ((cs ++ [render p]).map fun command => " ".intercalate command)) :: rest ∧
          ∀ text, Event.writeHeader text ∉ rest := by
    intro cs
    rcases run_cases p w cs with ⟨-, hr⟩ | ⟨j, text, -, -, -, hr⟩ | ⟨cmds0, cmds1, -, -, -, hr⟩
    · left; rw [hr]; exact ⟨rfl, rfl⟩
    · left; rw [hr]; exact ⟨rfl, rfl⟩
    · right; rw [hr]; exact startAndWait_trace _ _ _ _
  refine ⟨?_, ?_, ?_⟩
  · rcases key commands with h | h
    · exact Or.inl h.2
    · exact Or.inr h
  · intro hw
    rcases key commands with h | ⟨rest, h, -⟩
    · exact absurd h.1 hw
    · rw [h]; simp
  · intro hm hl hg hn hq hw
    rcases key (plan p w) with h | ⟨rest, h, -⟩
    · exact absurd h.1 hw
    · unfold Run
      rw [h]
      have hcs : plan p w ++ [render p] =
          [["git", "grep", "--untracked", "-I", "-H", "-n", "-e", "TODO"],
            [p.env.NdlPath, "--reformat-grep-output", "TODO"]] := by
        simp [plan, useGitGrep_eq_true hm hl hg, hn, render, hq]
      rw [hcs, git_header]
      rfl

theorem missingToolMessage_names_program (name text : String) :
    List.IsInfix "Couldn't find a tool needed by our query plan".data
        (missingToolMessage name text).data ∧
      List.IsInfix ("Perhaps you need to install '" ++ name ++ "'").data
        (missingToolMessage name text).data := by
  have h1 : "Couldn't find a tool needed by our query plan\n"
      = "Couldn't find a tool needed by our query plan" ++ "\n" := by decide
  have h2 : "'\n" = "'" ++ "\n" := by decide
  constructor
  · refine ⟨[], ("\n" ++ "Perhaps you need to install '" ++ name ++ "'\n" ++ text ++ "\n").data, ?_⟩
    simp only [missingToolMessage, h1, String.data_append, List.append_assoc, List.nil_append]
  · refine ⟨"Couldn't find a tool needed by our query plan\n".data, ("\n" ++ text ++ "\n").data, ?_⟩
    simp only [missingToolMessage, h2, String.data_append, List.append_assoc]

theorem Start_Command_missing (w : World) (k : Nat) (prog : String) (args : List String)
    (text : String) (hbare : w.isBareName prog = true) (hlook : w.lookPath prog = .error text) :
    Start w k (Command w prog args) = some (.execError prog text) := by
  simp [Start, Command, hbare, hlook]

/-- C8: when the wiring succeeded, every child before child `k` starts, and the
program of child `k` is a bare name whose lookup on `PATH` fails, `run` calls
`Start` on the children `0, ..., k` only, prints the missing-tool message
naming the program of child `k`, awaits no child, and exits with status 1. -/
theorem missing_tool_exits (p : Pipeline) (w : World) (commands : List (List String))
    (k : Nat) (prog : String) (args : List String) (text : String)
    (hne : ∀ c ∈ commands, c ≠ [])
    (hpipe : ∀ i, i < commands.length → w.pipe i = none)
    (hk : (commands ++ [render p])[k]? = some (prog :: args))
    (hbefore : ∀ j, j < k → startResult w (commands ++ [render p]) j = none)
    (hbare : w.isBareName prog = true) (hlook : w.lookPath prog = .error text) :
    (run p w commands).outcome = .exited 1 ∧
      (run p w commands).trace =
        .writeHeader (" | ".intercalate
            ((commands ++ [render p]).map fun command => " ".intercalate command)) ::
          ((List.range (k + 1)).map Event.start ++ [.stderr (missingToolMessage prog text)]) ∧
      startedChildren (run p w commands).trace = List.range (k + 1) ∧
      awaited (run p w commands).trace = [] ∧
      List.IsInfix "Couldn't find a tool needed by our query plan".data
        (missingToolMessage prog text).data ∧
      List.IsInfix ("Perhaps you need to install '" ++ prog ++ "'").data
        (missingToolMessage prog text).data := by
  obtain ⟨cmds0, cmds, hc, hlen, hpt, hrun⟩ := run_reaches_start p w commands hne hpipe
  have hkl : k < (commands ++ [render p]).length := (List.getElem?_eq_some.mp hk).1
  obtain ⟨name, args1, h1, h2⟩ :=
    wired_child w (commands ++ [render p]) cmds0 cmds (commands.length : Int) hc hpt k hkl
  rw [hk, Option.some.injEq, List.cons.injEq] at h1
  obtain ⟨rfl, rfl⟩ := h1
  have hs := startLoop_missing w cmds 0 k _ prog text h2
    (fun j c hj hjc => by
      rw [Nat.zero_add, Start_of_wired w _ cmds0 cmds _ hc (by simpa using hlen) hpt j c hjc]
      exact hbefore j hj)
    (by rw [Nat.zero_add, Start_wiredCmd]; exact Start_Command_missing w k prog args text hbare hlook)
  have htrace : (run p w commands).trace =
      .writeHeader (" | ".intercalate
          ((commands ++ [render p]).map fun command => " ".intercalate command)) ::
        ((List.range (k + 1)).map Event.start ++ [.stderr (missingToolMessage prog text)]) := by
    rw [hrun]
    simp [startAndWait, hs, List.range_eq_range']
  refine ⟨?_, htrace, ?_, ?_, missingToolMessage_names_program prog text⟩
  · rw [hrun]
    simp [startAndWait, hs]
  · rw [htrace, startedChildren_header_cons, startedChildren_append, startedChildren_starts]
    simp [startedChildren]
  · rw [htrace, awaited_header_cons, awaited_append, awaited_starts]
    simp [awaited]

theorem startLoop_outcome (w : World) :
    ∀ (cmds : List Cmd) (i : Nat) (o : Outcome), (startLoop w cmds i).2 = some o →
      o ≠ .panicked .indexOutOfRange := by
  intro cmds
  induction cmds with
  | nil => intro i o h; simp [startLoop] at h
  | cons c rest ih =>
    intro i o h
    unfold startLoop at h
    split at h
    · exact ih (i + 1) o h
    · simp only [Option.some.injEq] at h
      rw [← h]; simp
    · simp only [Option.some.injEq] at h
      rw [← h]; simp

theorem run_index_in_range (p : Pipeline) (w : World) (commands : List (List String))
    (hne : ∀ c ∈ commands, c ≠ []) :
    (run p w commands).outcome ≠ .panicked .indexOutOfRange := by
  rcases run_cases p w commands with ⟨⟨c, hc, rfl⟩, -⟩ | ⟨j, text, -, -, -, hr⟩ |
      ⟨cmds0, cmds, hc, hlen, hpt, hr⟩
  · exact absurd rfl (hne [] hc)
  · rw [hr]; simp
  · rw [hr]
    unfold startAndWait
    simp only
    split
    · rename_i o ho
      exact startLoop_outcome w cmds 0 o ho
    · rw [waitLoop_returns]
      · simp
      · intro i hi
        have hil : i < (commands ++ [render p]).length := by simp; omega
        have hmem := mem_append_render (p := p) hne _ (List.getElem_mem hil)
        rw [List.getElem?_eq_getElem hil]
        cases hci : (commands ++ [render p])[i] with
        | nil => exact absurd hci hmem
        | cons name args => exact ⟨name, args, rfl⟩

theorem fanout_ne_nil (w : World) (needle : List String) : fanout w ++ needle ≠ [] := by
  simp [fanout]

theorem plan_empty_stage (p : Pipeline) (w : World) (i : Nat)
    (h : (plan p w ++ [render p])[i]? = some []) :
    i = 0 ∧ useGitGrep p = false ∧ p.h.AsBash = [] := by
  unfold plan at h
  cases hg : useGitGrep p with
  | true =>
    simp only [hg, if_true] at h
    match i, h with
    | 0, h => simp at h
    | 1, h => simp [render] at h
    | i + 2, h => simp at h
  | false =>
    simp only [hg] at h
    cases hl : p.env.WantsSpecificLanguages with
    | true =>
      simp only [hl, if_true] at h
      match i, h with
      | 0, h => exact ⟨rfl, rfl, by simpa using h⟩
      | 1, h => simp [languageFilter] at h
      | 2, h => simp [fanout] at h
      | 3, h => simp [render] at h
      | i + 4, h => simp at h
    | false =>
      simp only [hl] at h
      match i, h with
      | 0, h => exact ⟨rfl, rfl, by simpa using h⟩
      | 1, h => simp [fanout] at h
      | 2, h => simp [render] at h
      | i + 3, h => simp at h

/-- C10: an empty stage of the command sequence of `Run` can only be the
haystack command of the multi-stage plan, at index 0; the fan-out stage and the
renderer are never empty.  So when the haystack command is non-empty every
command is non-empty, every child is created, and `run` never indexes out of
range; with an empty haystack command in the multi-stage plan `command[0]`
is out of range. -/
theorem commands_nonempty (p : Pipeline) (w : World) :
    (∀ i : Nat, (Run p w).commands[i]? = some [] →
        i = 0 ∧ useGitGrep p = false ∧ p.h.AsBash = []) ∧
      fanout w ++ p.s.AsBash ≠ [] ∧ render p ≠ [] ∧
      (p.h.AsBash ≠ [] →
        (∀ c ∈ (Run p w).commands, c ≠ []) ∧
          (createCmds w (Run p w).commands).isSome = true ∧
          (Run p w).outcome ≠ .panicked .indexOutOfRange) ∧
      (useGitGrep p = false → p.h.AsBash = [] →
        (Run p w).outcome = .panicked .indexOutOfRange) := by
  have hcs : (Run p w).commands = plan p w ++ [render p] := run_commands p w _
  have hall : p.h.AsBash ≠ [] → ∀ c ∈ plan p w ++ [render p], c ≠ [] := by
    intro hh c hmem hc
    obtain ⟨i, hi, rfl⟩ := List.getElem_of_mem hmem
    have := plan_empty_stage p w i (by rw [List.getElem?_eq_getElem hi, hc])
    exact hh this.2.2
  refine ⟨?_, fanout_ne_nil w _, render_ne_nil p, ?_, ?_⟩
  · intro i h
    rw [hcs] at h
    exact plan_empty_stage p w i h
  · intro hh
    rw [hcs]
    refine ⟨hall hh, ?_, ?_⟩
    · obtain ⟨cmds, hc⟩ := createCmds_isSome w _ (hall hh)
      rw [hc]; rfl
    · exact run_index_in_range p w _
        (fun c hmem => hall hh c (List.mem_append.mpr (Or.inl hmem)))
  · intro hg hh
    cases hl : p.env.WantsSpecificLanguages <;>
      simp [Run, run, plan, hg, hh, hl, createCmds]


/-- The git plan at a needle that begins with a hyphen: it is still the word after `-e`. -/
theorem Run_git_grep_plan_witness :
    (dashPipeline.env.IsMdfindAvailable = false ∧ dashPipeline.env.WantsSpecificLanguages = false ∧
      dashPipeline.env.IsInGitRepository = true) ∧
    (Run dashPipeline (calmWorld 8 fun _ => none)).commands =
      [["git", "grep", "--untracked", "-I", "-H", "-n", "-e", "--version"],
       ["/opt/ndl/ndl", "--reformat-grep-output", "--version"]] :=
  ⟨⟨rfl, rfl, rfl⟩, (Run_git_grep_plan dashPipeline (calmWorld 8 fun _ => none) rfl rfl rfl).1⟩

/-- Scenario 3: four stages, the language filter second. -/
theorem Run_multi_stage_plan_witness :
    ¬(langPipeline.env.IsMdfindAvailable = false ∧ langPipeline.env.WantsSpecificLanguages = false ∧
      langPipeline.env.IsInGitRepository = true) ∧
    (Run langPipeline (calmWorld 8 fun _ => none)).commands =
      [["mdfind", "-0", "kMDItemTextContent == \"foo\""],
       ["grep", "-z", "-Z", "-E", "-e", "\\.(go|rs)$"],
       ["xargs", "-0", "-n", "1000", "-P", "8", "grep", "-Z", "-H", "-n", "-e", "foo"],
       ["/opt/ndl/ndl", "--reformat-grep-output", "foo"]] :=
  ⟨by decide, (Run_multi_stage_plan langPipeline (calmWorld 8 fun _ => none) (by decide)).1⟩

/-- Scenario 2 with eight CPUs: the degree of parallelism is the word `8`. -/
theorem fanout_and_filter_stages_witness :
    (Run mdfindPipeline (calmWorld 8 fun _ => none)).commands =
      [["mdfind", "-0", "kMDItemTextContent == \"foo\""],
       ["xargs", "-0", "-n", "1000", "-P", "8", "grep", "-Z", "-H", "-n", "-e", "foo"],
       ["/opt/ndl/ndl", "--reformat-grep-output", "foo"]] :=
  (fanout_and_filter_stages mdfindPipeline (calmWorld 8 fun _ => none)).2.2.2.2
    "kMDItemTextContent == \"foo\"" rfl rfl rfl rfl rfl

/-- C3: in the four-stage plan of scenario 6 every child starts, the language
filter (child 1) exits with status 1, and `run` returns `nil`: the failure is
not surfaced. -/
theorem filter_failure_returns_nil :
    (Run langPipeline childOneFailsWorld).commands[1]?
        = some ["grep", "-z", "-Z", "-E", "-e", "\\.(go|rs)$"] ∧
      childOneFailsWorld.wait 1 = some (.exitError (some (.exited 1))) ∧
      startedChildren (Run langPipeline childOneFailsWorld).trace = [0, 1, 2, 3] ∧
      (Run langPipeline childOneFailsWorld).outcome = .returned none := by
  decide

/-- C5: in the three-stage plan of scenario 2 every child starts, `xargs`
(child 1) exits with status 1, and `run` returns after awaiting the children 2
and 1 only: child 0 is never awaited. -/
theorem failed_stage_leaves_child_unawaited :
    startedChildren (Run mdfindPipeline childOneFailsWorld).trace = [0, 1, 2] ∧
      awaited (Run mdfindPipeline childOneFailsWorld).trace = [2, 1] ∧
      (Run mdfindPipeline childOneFailsWorld).outcome = .returned none := by
  decide

/-- Scenario 4: `xargs` exits 123, every child is awaited, `run` returns `nil`. -/
theorem run_succeeds_when_benign_witness :
    noMatchWorld.wait 1 = some (.exitError (some (.exited 123))) ∧
      (run mdfindPipeline noMatchWorld (plan mdfindPipeline noMatchWorld)).outcome = .returned none ∧
      awaited (run mdfindPipeline noMatchWorld (plan mdfindPipeline noMatchWorld)).trace
        = [2, 1, 0] :=
  ⟨rfl, run_succeeds_when_benign mdfindPipeline noMatchWorld (plan mdfindPipeline noMatchWorld)
    (by decide) (fun _ _ => rfl) (by decide)
    (fun i hi => by
      have hi2 : i ≤ 2 := hi
      interval_cases i
      · exact Or.inl rfl
      · exact Or.inr ⟨["-0", "-n", "1000", "-P", "8", "grep", "-Z", "-H", "-n", "-e", "foo"],
          by decide, rfl⟩
      · exact Or.inl rfl)⟩

/-- Scenario 1: the renderer writes to the parent stdout, both children to the parent stderr. -/
theorem wiring_binds_streams_witness :
    (run gitPipeline (calmWorld 8 fun _ => none) (plan gitPipeline (calmWorld 8 fun _ => none))).wired
        = some gitChildren ∧
      (∃ last, gitChildren.getLast? = some last ∧ gitChildren[1]? = some last ∧
        last.Args = ["/opt/ndl/ndl", "--reformat-grep-output", "TODO"] ∧
        last.Stdout = some .parentStdout) ∧
      (∀ c ∈ gitChildren, c.Stderr = some .parentStderr) :=
  ⟨by decide,
    (wiring_binds_streams gitPipeline (calmWorld 8 fun _ => none)
      (plan gitPipeline (calmWorld 8 fun _ => none)) gitChildren (by decide)).2.2.1,
    (wiring_binds_streams gitPipeline (calmWorld 8 fun _ => none)
      (plan gitPipeline (calmWorld 8 fun _ => none)) gitChildren (by decide)).2.2.2.2⟩

/-- Scenario 1: the header line of the spec. -/
theorem header_written_before_start_witness :
    (Run gitPipeline (calmWorld 8 fun _ => none)).trace.head? = some (.writeHeader
      "git grep --untracked -I -H -n -e TODO | /opt/ndl/ndl --reformat-grep-output TODO") :=
  (header_written_before_start gitPipeline (calmWorld 8 fun _ => none) []).2.2
    rfl rfl rfl rfl rfl (by decide)

/-- Scenario 5: `xargs` is child 1 of the three-stage plan; the renderer is never started. -/
theorem missing_tool_exits_witness :
    (run mdfindPipeline noXargsWorld (plan mdfindPipeline noXargsWorld)).outcome = .exited 1 ∧
      startedChildren (run mdfindPipeline noXargsWorld (plan mdfindPipeline noXargsWorld)).trace
        = [0, 1] ∧
      awaited (run mdfindPipeline noXargsWorld (plan mdfindPipeline noXargsWorld)).trace = [] :=
  have h := missing_tool_exits mdfindPipeline noXargsWorld (plan mdfindPipeline noXargsWorld) 1
    "xargs" ["-0", "-n", "1000", "-P", "8", "grep", "-Z", "-H", "-n", "-e", "foo"]
    "exec: \"xargs\": executable file not found in $PATH"
    (by decide) (fun _ _ => rfl) (by decide)
    (fun j hj => by
      have hj0 : j = 0 := by omega
      subst hj0
      decide)
    (by decide) rfl
  ⟨h.1, h.2.2.1, h.2.2.2.1⟩

/-- Scenario 2: the haystack command is non-empty and no index is out of range. -/
theorem commands_nonempty_witness :
    mdfindPipeline.h.AsBash ≠ [] ∧
      (Run mdfindPipeline (calmWorld 8 fun _ => none)).outcome ≠ .panicked .indexOutOfRange :=
  ⟨by decide,
    ((commands_nonempty mdfindPipeline (calmWorld 8 fun _ => none)).2.2.2.1 (by decide)).2.2⟩

end NeedlessSearch
